import Mathlib

/-!
# Verification of the `aplus` promise library

A shallow embedding of `src/aplus/__init__.py`: a Promises/A+-style promise
class with a state machine (PENDING / REJECTED / FULFILLED), a resolution
algorithm adopting promise-like ("thenable") values, callback registration
(`addCallback` / `addErrback` / `done` / `then`) and the `listPromise`
combinator built on `CountdownLatch`.

The Python code is single-threaded per call; we model a heap of promise
objects and latches (`World`) and give each Python method a clause of a
fuel-indexed interpreter `exec`.  Python exceptions are modelled by the
`Except` error channel carrying the raised value; a failed `assert`
raises `AssertionError` (`Val.assertionError`).
-/

namespace Aplus

mutual
/-- Python values as they occur in this library: `None`, numbers, strings,
lists, promise objects (by heap reference), foreign thenables, callables,
and exception objects (which Python lets flow as ordinary values once
caught).  `Val.thenable useDone i` models a well-behaved foreign thenable
exposing `done` (when `useDone = true`) or `then` (when `false`) whose
registration delegates to the promise at heap index `i`.
`Val.fuelOut` is an artifact of the fuel-indexed interpreter, not a Python
value. -/
inductive Val where
  | none : Val
  | int : Int → Val
  | str : String → Val
  | list : List Val → Val
  | pref : Nat → Val
  | thenable : Bool → Nat → Val
  | fn : Fn → Val
  | typeError : String → Val
  | assertionError : Val
  | attrError : Val
  | fuelOut : Val

/-- Callables passed around by the library: bound methods `p.fulfill`,
`p.reject`, the two closures built by `then`, the `handleSuccess` closure
of `listPromise` (capturing the latch, the input list and the result
promise), and user-supplied reactions (modelled as either returning a
constant or raising). -/
inductive Fn where
  | fulfillOf : Nat → Fn
  | rejectOf : Nat → Fn
  | callAndFulfill : Nat → Val → Fn
  | callAndReject : Nat → Val → Fn
  | listHandleSuccess : Nat → List Val → Nat → Fn
  | constFn : Val → Fn
  | raiseFn : Val → Fn
end

/-- `Promise.PENDING = -1` -/
def PENDING : Int := -1
/-- `Promise.REJECTED = 0` -/
def REJECTED : Int := 0
/-- `Promise.FULFILLED = 1` -/
def FULFILLED : Int := 1

/-- One `Promise` object: `_state`, `value`, `reason`, `_callbacks`,
`_errbacks`.  The callback lists are `Option` because the code sets them
to `None` on settlement to prevent future appending. -/
structure PromiseObj where
  state : Int
  value : Val
  reason : Val
  callbacks : Option (List Fn)
  errbacks : Option (List Fn)

/-- `Promise.__init__`: pending, both values `None`, empty reaction lists. -/
def freshPromise : PromiseObj :=
  { state := PENDING, value := .none, reason := .none,
    callbacks := some [], errbacks := some [] }

/-- The heap: promise objects and countdown latches, with bump allocators. -/
structure World where
  mem : Nat → PromiseObj
  latch : Nat → Int
  nextP : Nat
  nextL : Nat

/-- The empty heap (no promises, no latches allocated). -/
def emptyWorld : World :=
  { mem := fun _ => freshPromise, latch := fun _ => 0, nextP := 0, nextL := 0 }

/-- Overwrite the promise object at index `i`. -/
def World.setP (w : World) (i : Nat) (p : PromiseObj) : World :=
  { w with mem := fun j => if j = i then p else w.mem j }

/-- Overwrite the latch at index `i`. -/
def World.setL (w : World) (i : Nat) (c : Int) : World :=
  { w with latch := fun j => if j = i then c else w.latch j }

/-- Allocate a fresh pending promise, returning its index. -/
def allocP (w : World) : Nat × World :=
  (w.nextP, { w.setP w.nextP freshPromise with nextP := w.nextP + 1 })

/-- `CountdownLatch.__init__(count)` (the `assert count >= 0` holds by
the `Nat` argument).  Returns the latch index. -/
def allocL (w : World) (n : Nat) : Nat × World :=
  (w.nextL, { w.setL w.nextL (n : Int) with nextL := w.nextL + 1 })

/-- Python's `self is x` identity test against the promise object at
heap index `i`: true exactly when `x` is that same object. -/
def isSelf (x : Val) (i : Nat) : Bool :=
  match x with
  | .pref j => j = i
  | _ => false

/-- Python's `x is None`. -/
def isNone : Val → Bool
  | .none => true
  | _ => false

/-- `_isFunction(v)`: not `None` and has `__call__`. -/
def isFunction : Val → Bool
  | .fn _ => true
  | _ => false

/-- `_isPromise(obj)`: a `Promise` instance, or an object with a callable
`done`, or an object with a callable `then`. -/
def isPromiseLike : Val → Bool
  | .pref _ => true
  | .thenable _ _ => true
  | _ => false

/-- `hasattr(x, 'then') and _isFunction(x.then)` for values that are not
`Promise` instances (the `elif` branch of `fulfill`; dead code, since
`_isPromise` already covers every such value). -/
def hasCallableThen : Val → Bool
  | .thenable false _ => true
  | _ => false

/-- The attribute access `p.value` done by `listPromise`'s
`handleSuccess` on each element of the original input list (which may
not be a `Promise` instance, in which case Python raises
`AttributeError`). -/
def pvalue (w : World) : Val → Except Val Val
  | .pref i => .ok (w.mem i).value
  | _ => .error .attrError

/-- `list(map(lambda p: p.value, promises))`. -/
def pvalues (w : World) : List Val → Except Val (List Val)
  | [] => .ok []
  | p :: ps =>
    match pvalue w p, pvalues w ps with
    | .ok v, .ok vs => .ok (v :: vs)
    | .error e, _ => .error e
    | _, .error e => .error e

/-- The argument normalization of `listPromise`:
`if len(promises) == 1 and isinstance(promises[0], list): promises = promises[0]`. -/
def lpArgs : List Val → List Val
  | [.list xs] => xs
  | args => args

/-- The calls of the library that the interpreter can perform.  One
constructor per Python function we model (`then` and `done` are renamed
`thenCall` / `doneCall` because `then` and `done` clash with Lean
keywords in constructor position). -/
inductive Call where
  | callf : Fn → Val → Call
  | fulfill : Nat → Val → Call
  | fulfillPriv : Nat → Val → Call
  | reject : Nat → Val → Call
  | addCallback : Nat → Val → Call
  | addErrback : Nat → Val → Call
  | doneCall : Nat → Val → Val → Call
  | thenCall : Nat → Val → Val → Call
  | promisify : Val → Call
  | mkValue : Val → Call
  | listPromise : List Val → Call

mutual

/-- The interpreter.  `exec fuel c w` runs call `c` in heap `w`,
returning Python's outcome (`.ok returnValue` or `.error raisedValue`)
and the final heap.  Fuel only bounds call depth; it is an upper bound,
not part of the semantics. -/
def exec : Nat → Call → World → Except Val Val × World
  | 0, _, w => (.error .fuelOut, w)
  | fuel + 1, c, w =>
    match c with
    | .callf f arg =>
      match f with
      | .fulfillOf i => exec fuel (.fulfill i arg) w
      | .rejectOf i => exec fuel (.reject i arg) w
      | .callAndFulfill ret success =>
        -- try: if _isFunction(success): ret.fulfill(success(v))
        --      else: ret.fulfill(v)
        -- except Exception as e: ret.reject(e)
        let body :=
          match success with
          | .fn sf =>
            match exec fuel (.callf sf arg) w with
            | (.ok v, w1) => exec fuel (.fulfill ret v) w1
            | (.error e, w1) => (.error e, w1)
          | _ => exec fuel (.fulfill ret arg) w
        match body with
        | (.ok _, w1) => (.ok .none, w1)
        | (.error e, w1) => exec fuel (.reject ret e) w1
      | .callAndReject ret failure =>
        -- try: if _isFunction(failure): ret.fulfill(failure(r))
        --      else: ret.reject(r)
        -- except Exception as e: ret.reject(e)
        let body :=
          match failure with
          | .fn ff =>
            match exec fuel (.callf ff arg) w with
            | (.ok v, w1) => exec fuel (.fulfill ret v) w1
            | (.error e, w1) => (.error e, w1)
          | _ => exec fuel (.reject ret arg) w
        match body with
        | (.ok _, w1) => (.ok .none, w1)
        | (.error e, w1) => exec fuel (.reject ret e) w1
      | .listHandleSuccess latchId promises ret =>
        -- if counter.dec() == 0: ret.fulfill(list(map(lambda p: p.value, promises)))
        let c := w.latch latchId
        if c ≤ 0 then (.error .assertionError, w)  -- assert self._count > 0
        else
          let w1 := w.setL latchId (c - 1)
          if c - 1 = 0 then
            match pvalues w1 promises with
            | .ok vs => exec fuel (.fulfill ret (.list vs)) w1
            | .error e => (.error e, w1)
          else (.ok .none, w1)
      | .constFn v => (.ok v, w)
      | .raiseFn e => (.error e, w)
    | .fulfill i x =>
      -- Promise.fulfill
      if isSelf x i then
        (.error (.typeError "Cannot resolve promise with itself."), w)
      else if isPromiseLike x then
        -- try: _promisify(x).done(self.fulfill, self.reject)
        -- except Exception as e: self.reject(e)
        let body :=
          match exec fuel (.promisify x) w with
          | (.ok (.pref p), w1) =>
            exec fuel (.doneCall p (.fn (.fulfillOf i)) (.fn (.rejectOf i))) w1
          | (.ok _, w1) => (.error .attrError, w1)
          | (.error e, w1) => (.error e, w1)
        match body with
        | (.ok _, w1) => (.ok .none, w1)
        | (.error e, w1) => exec fuel (.reject i e) w1
      else if hasCallableThen x then
        -- dead code in the source: any such x already satisfies _isPromise
        let body :=
          match x with
          | .thenable _ j =>
            exec fuel (.doneCall j (.fn (.fulfillOf i)) (.fn (.rejectOf i))) w
          | _ => (.error .attrError, w)
        match body with
        | (.ok _, w1) => (.ok .none, w1)
        | (.error e, w1) => exec fuel (.reject i e) w1
      else exec fuel (.fulfillPriv i x)  w
    | .fulfillPriv i v =>
      -- Promise._fulfill
      let obj := w.mem i
      if obj.state = PENDING then
        let w1 := w.setP i { obj with value := v, state := FULFILLED,
                                      callbacks := Option.none }
        match obj.callbacks with
        | some cbs => (.ok .none, runCbs fuel cbs v w1)
        | Option.none => (.error (.typeError "object is not iterable"), w1)
      else (.error .assertionError, w)  -- assert self._state == self.PENDING
    | .reject i r =>
      -- Promise.reject
      let obj := w.mem i
      if obj.state = PENDING then
        let w1 := w.setP i { obj with reason := r, state := REJECTED,
                                      errbacks := Option.none }
        match obj.errbacks with
        | some ebs => (.ok .none, runCbs fuel ebs r w1)
        | Option.none => (.error (.typeError "object is not iterable"), w1)
      else (.error .assertionError, w)  -- assert self._state == self.PENDING
    | .addCallback i fv =>
      -- Promise.addCallback
      if isFunction fv then
        match fv with
        | .fn f =>
          let obj := w.mem i
          if obj.state = PENDING then
            match obj.callbacks with
            | some cbs =>
              (.ok .none, w.setP i { obj with callbacks := some (cbs ++ [f]) })
            | Option.none => (.error .attrError, w)
          else if obj.state = FULFILLED then
            -- f(self.value)  -- no try/except here
            match exec fuel (.callf f obj.value) w with
            | (.ok _, w1) => (.ok .none, w1)
            | (.error e, w1) => (.error e, w1)
          else (.ok .none, w)
        | _ => (.error .attrError, w)
      else (.error .assertionError, w)  -- assert _isFunction(f)
    | .addErrback i fv =>
      -- Promise.addErrback
      if isFunction fv then
        match fv with
        | .fn f =>
          let obj := w.mem i
          if obj.state = PENDING then
            match obj.errbacks with
            | some ebs =>
              (.ok .none, w.setP i { obj with errbacks := some (ebs ++ [f]) })
            | Option.none => (.error .attrError, w)
          else if obj.state = REJECTED then
            -- f(self.reason)  -- no try/except here
            match exec fuel (.callf f obj.reason) w with
            | (.ok _, w1) => (.ok .none, w1)
            | (.error e, w1) => (.error e, w1)
          else (.ok .none, w)
        | _ => (.error .attrError, w)
      else (.error .assertionError, w)  -- assert _isFunction(f)
    | .doneCall i success failure =>
      -- Promise.done: if success is not None: addCallback(success);
      --               if failure is not None: addErrback(failure)
      let step1 :=
        if isNone success then (.ok Val.none, w)
        else exec fuel (.addCallback i success) w
      match step1 with
      | (.ok _, w1) =>
        if isNone failure then (.ok Val.none, w1)
        else exec fuel (.addErrback i failure) w1
      | (.error e, w1) => (.error e, w1)
    | .thenCall i success failure =>
      -- Promise.then: ret = Promise(); self.done(callAndFulfill, callAndReject); return ret
      let (ret, w1) := allocP w
      match exec fuel (.doneCall i (.fn (.callAndFulfill ret success))
                                   (.fn (.callAndReject ret failure))) w1 with
      | (.ok _, w2) => (.ok (.pref ret), w2)
      | (.error e, w2) => (.error e, w2)
    | .promisify x =>
      -- _promisify
      match x with
      | .pref p => (.ok (.pref p), w)
      | .thenable _ j =>
        -- p = Promise(); obj.done(p.fulfill, p.reject)  [resp. obj.then(...)]
        -- the proxy delegates registration to promise j
        let (p, w1) := allocP w
        match exec fuel (.doneCall j (.fn (.fulfillOf p)) (.fn (.rejectOf p))) w1 with
        | (.ok _, w2) => (.ok (.pref p), w2)
        | (.error e, w2) => (.error e, w2)
      | _ => (.error (.typeError "Object is not a Promise like object."), w)
    | .mkValue x =>
      -- Promise.value(x): p = Promise(); p.fulfill(x); return p
      let (p, w1) := allocP w
      match exec fuel (.fulfill p x) w1 with
      | (.ok _, w2) => (.ok (.pref p), w2)
      | (.error e, w2) => (.error e, w2)
    | .listPromise args =>
      -- listPromise(*promises)
      if args.length = 0 then exec fuel (.mkValue (.list [])) w
      else
        let promises := lpArgs args
        let (ret, w1) := allocP w
        let (latchId, w2) := allocL w1 promises.length
        match regLoop fuel promises promises latchId ret w2 with
        | (.ok _, w3) => (.ok (.pref ret), w3)
        | (.error e, w3) => (.error e, w3)

/-- The dispatch loop of `_fulfill` / `reject`: invoke each reaction with
the settled value, swallowing any exception (`except Exception: pass`). -/
def runCbs : Nat → List Fn → Val → World → World
  | 0, _, _, w => w
  | _ + 1, [], _, w => w
  | fuel + 1, f :: fs, arg, w =>
    runCbs fuel fs arg (exec fuel (.callf f arg) w).2

/-- The registration loop of `listPromise`:
`for p in promises: assert _isPromise(p); _promisify(p).done(handleSuccess, ret.reject)`.
`full` is the whole input list captured by the `handleSuccess` closure,
`rest` the part of it not yet iterated. -/
def regLoop : Nat → List Val → List Val → Nat → Nat → World →
    Except Val Val × World
  | 0, _, _, _, _, w => (.error .fuelOut, w)
  | _ + 1, _, [], _, _, w => (.ok .none, w)
  | fuel + 1, full, p :: rest, latchId, ret, w =>
    if isPromiseLike p then
      match exec fuel (.promisify p) w with
      | (.ok (.pref pp), w1) =>
        match exec fuel (.doneCall pp
            (.fn (.listHandleSuccess latchId full ret))
            (.fn (.rejectOf ret))) w1 with
        | (.ok _, w2) => regLoop fuel full rest latchId ret w2
        | (.error e, w2) => (.error e, w2)
      | (.ok _, w1) => (.error .attrError, w1)
      | (.error e, w1) => (.error e, w1)
    else (.error .assertionError, w)  -- assert _isPromise(p)

end


/-- `Stable w w'`: heap `w'` evolved from `w` without ever touching an
already-settled promise object below the allocation watermark. -/
def Stable (w w' : World) : Prop :=
  w.nextP ≤ w'.nextP ∧
  ∀ i, i < w.nextP → (w.mem i).state ≠ PENDING → w'.mem i = w.mem i

/-- Build a heap whose first promises are the given objects (everything
above the watermark is unallocated). -/
def mkWorld (ps : List PromiseObj) : World :=
  { mem := fun i => ps.getD i freshPromise, latch := fun _ => 0,
    nextP := ps.length, nextL := 0 }

/-- A heap with one pending promise (index 0). -/
def w1P : World := mkWorld [freshPromise]

/-- A heap with two pending promises (indices 0 and 1). -/
def w2P : World := mkWorld [freshPromise, freshPromise]

/-- A heap where promise 0 is already fulfilled with `5` and promise 1 is
pending. -/
def wSettled : World :=
  mkWorld [⟨FULFILLED, .int 5, .none, Option.none, some []⟩, freshPromise]

/-- A heap with one pending promise whose registered reactions all
raise. -/
def wRaisers : World :=
  mkWorld [⟨PENDING, .none, .none, some [.raiseFn (.str "cb")],
            some [.raiseFn (.str "eb")]⟩]

/-- A heap whose two promises are both already rejected (with reasons
`"r1"` and `"r2"`). -/
def wTwoRejected : World :=
  mkWorld [⟨REJECTED, .none, .str "r1", some [], Option.none⟩,
           ⟨REJECTED, .none, .str "r2", some [], Option.none⟩]

/-- A heap of `n + 1` pending promises `0 .. n` (promise 0 plays the
role of the adopting promise `A`, promises `1 .. n` a chain of
thenables). -/
def wN (n : Nat) : World :=
  { mem := fun _ => freshPromise, latch := fun _ => 0,
    nextP := n + 1, nextL := 0 }

/-- Build the adoption chain: `linkAll k` performs
`fulfill j (promise (j+1))` for `j = 0 .. k-1` in order, so each promise
`j` adopts the next one. -/
def linkAll : Nat → World → World
  | 0, w => w
  | k + 1, w => (exec 10 (.fulfill k (.pref (k + 1))) (linkAll k w)).2

/-- A heap of `n` pending promises `0 .. n-1`, the inputs of
`listPromise` (the combinator then allocates its result at index `n` and
its latch at index 0). -/
def wLP (n : Nat) : World :=
  { mem := fun _ => freshPromise, latch := fun _ => 0,
    nextP := n, nextL := 0 }

/-- The promise references `[pref 0, …, pref (n-1)]`. -/
def prefs (n : Nat) : List Val := (List.range n).map Val.pref

/-- The shape `listPromise` leaves each pending input in: its
`handleSuccess` closure as the single callback and `ret.reject` as the
single errback. -/
def lpRegObj (L : Nat) (full : List Val) (ret : Nat) : PromiseObj :=
  ⟨PENDING, .none, .none, some [.listHandleSuccess L full ret],
   some [.rejectOf ret]⟩

/-- Fulfill the promises listed in `order`, each with its value under
`vals`, one `fulfill` call per input — the completion order of the
inputs. -/
def settleAll (vals : Nat → Val) : List Nat → World → World
  | [], w => w
  | j :: js, w => settleAll vals js (exec 20 (.fulfill j (vals j)) w).2

/-! ## Small-step evaluation lemmas -/

theorem runCbs_nil (fuel : Nat) (arg : Val) (w : World) :
    runCbs fuel [] arg w = w := by
  cases fuel <;> rfl

theorem runCbs_cons (fuel : Nat) (f : Fn) (fs : List Fn) (arg : Val) (w : World) :
    runCbs (fuel + 1) (f :: fs) arg w =
      runCbs fuel fs arg (exec fuel (.callf f arg) w).2 := rfl

theorem exec_fulfill_plain (fuel i : Nat) (x : Val) (w : World)
    (hself : isSelf x i = false) (hp : isPromiseLike x = false)
    (ht : hasCallableThen x = false) :
    exec (fuel + 1) (.fulfill i x) w = exec fuel (.fulfillPriv i x) w := by
  simp [exec, hself, hp, ht]

theorem exec_fulfillPriv_pending (fuel i : Nat) (v vv rr : Val)
    (cbs : List Fn) (eb : Option (List Fn)) (w : World)
    (hm : w.mem i = ⟨PENDING, vv, rr, some cbs, eb⟩) :
    exec (fuel + 1) (.fulfillPriv i v) w =
      (.ok .none, runCbs fuel cbs v
        (w.setP i ⟨FULFILLED, v, rr, Option.none, eb⟩)) := by
  simp [exec, hm]

theorem exec_fulfillPriv_settled (fuel i : Nat) (v : Val) (w : World)
    (hs : (w.mem i).state ≠ PENDING) :
    exec (fuel + 1) (.fulfillPriv i v) w = (.error .assertionError, w) := by
  simp [exec, hs]

theorem exec_reject_pending (fuel i : Nat) (r vv rr : Val)
    (cb : Option (List Fn)) (ebs : List Fn) (w : World)
    (hm : w.mem i = ⟨PENDING, vv, rr, cb, some ebs⟩) :
    exec (fuel + 1) (.reject i r) w =
      (.ok .none, runCbs fuel ebs r
        (w.setP i ⟨REJECTED, vv, r, cb, Option.none⟩)) := by
  simp [exec, hm]

theorem exec_reject_settled (fuel i : Nat) (r : Val) (w : World)
    (hs : (w.mem i).state ≠ PENDING) :
    exec (fuel + 1) (.reject i r) w = (.error .assertionError, w) := by
  simp [exec, hs]

theorem exec_addCallback_pending (fuel i : Nat) (f : Fn) (vv rr : Val)
    (cbs : List Fn) (eb : Option (List Fn)) (w : World)
    (hm : w.mem i = ⟨PENDING, vv, rr, some cbs, eb⟩) :
    exec (fuel + 1) (.addCallback i (.fn f)) w =
      (.ok .none, w.setP i ⟨PENDING, vv, rr, some (cbs ++ [f]), eb⟩) := by
  simp [exec, isFunction, hm]

theorem exec_addCallback_fulfilled (fuel i : Nat) (f : Fn) (w : World)
    (hs : (w.mem i).state = FULFILLED) :
    exec (fuel + 1) (.addCallback i (.fn f)) w =
      (match exec fuel (.callf f (w.mem i).value) w with
       | (.ok _, w1) => (.ok .none, w1)
       | (.error e, w1) => (.error e, w1)) := by
  have hne : (w.mem i).state ≠ PENDING := by rw [hs]; decide
  have hfp : ¬(FULFILLED = PENDING) := by decide
  simp [exec, isFunction, hne, hs, hfp]

theorem exec_addCallback_rejected (fuel i : Nat) (f : Fn) (w : World)
    (hs : (w.mem i).state = REJECTED) :
    exec (fuel + 1) (.addCallback i (.fn f)) w = (.ok .none, w) := by
  have hne : (w.mem i).state ≠ PENDING := by rw [hs]; decide
  have hnf : (w.mem i).state ≠ FULFILLED := by rw [hs]; decide
  simp [exec, isFunction, hne, hnf]

theorem exec_addErrback_pending (fuel i : Nat) (f : Fn) (vv rr : Val)
    (cb : Option (List Fn)) (ebs : List Fn) (w : World)
    (hm : w.mem i = ⟨PENDING, vv, rr, cb, some ebs⟩) :
    exec (fuel + 1) (.addErrback i (.fn f)) w =
      (.ok .none, w.setP i ⟨PENDING, vv, rr, cb, some (ebs ++ [f])⟩) := by
  simp [exec, isFunction, hm]

theorem exec_addErrback_rejected (fuel i : Nat) (f : Fn) (w : World)
    (hs : (w.mem i).state = REJECTED) :
    exec (fuel + 1) (.addErrback i (.fn f)) w =
      (match exec fuel (.callf f (w.mem i).reason) w with
       | (.ok _, w1) => (.ok .none, w1)
       | (.error e, w1) => (.error e, w1)) := by
  have hne : (w.mem i).state ≠ PENDING := by rw [hs]; decide
  have hrp : ¬(REJECTED = PENDING) := by decide
  simp [exec, isFunction, hne, hs, hrp]

theorem exec_addErrback_fulfilled (fuel i : Nat) (f : Fn) (w : World)
    (hs : (w.mem i).state = FULFILLED) :
    exec (fuel + 1) (.addErrback i (.fn f)) w = (.ok .none, w) := by
  have hne : (w.mem i).state ≠ PENDING := by rw [hs]; decide
  have hnr : (w.mem i).state ≠ REJECTED := by rw [hs]; decide
  simp [exec, isFunction, hne, hnr]

theorem exec_doneCall_fns (fuel i : Nat) (sf ff : Fn) (w : World) :
    exec (fuel + 1) (.doneCall i (.fn sf) (.fn ff)) w =
      (match exec fuel (.addCallback i (.fn sf)) w with
       | (.ok _, w1) => exec fuel (.addErrback i (.fn ff)) w1
       | (.error e, w1) => (.error e, w1)) := by
  simp [exec, isNone]

/-! ## The one-shot invariant

A promise object that has left `PENDING` is never mutated again: every
mutation of `state` / `value` / `reason` / the reaction lists in the code
is guarded by `self._state == self.PENDING` under the instance lock, and
fresh allocation only writes above the allocation watermark. -/

theorem Stable.refl (w : World) : Stable w w := ⟨le_rfl, fun _ _ _ => rfl⟩

theorem Stable.trans {w1 w2 w3 : World} (h12 : Stable w1 w2)
    (h23 : Stable w2 w3) : Stable w1 w3 := by
  obtain ⟨n12, m12⟩ := h12
  obtain ⟨n23, m23⟩ := h23
  refine ⟨le_trans n12 n23, fun i hi hs => ?_⟩
  have e2 := m12 i hi hs
  have e3 := m23 i (lt_of_lt_of_le hi n12) (by rw [e2]; exact hs)
  rw [e3, e2]

theorem stable_setP_pending {w : World} {j : Nat} {p : PromiseObj}
    (hj : (w.mem j).state = PENDING) : Stable w (w.setP j p) := by
  refine ⟨le_rfl, fun i _ hs => ?_⟩
  have hij : i ≠ j := fun h => hs (h ▸ hj)
  simp [World.setP, hij]

theorem stable_setL {w : World} {j : Nat} {c : Int} :
    Stable w (w.setL j c) := ⟨le_rfl, fun _ _ _ => rfl⟩

theorem stable_allocP (w : World) : Stable w (allocP w).2 := by
  refine ⟨Nat.le_succ _, fun i hi _ => ?_⟩
  have hij : i ≠ w.nextP := Nat.ne_of_lt hi
  simp [allocP, World.setP, hij]

theorem stable_allocL (w : World) (n : Nat) : Stable w (allocL w n).2 :=
  ⟨le_rfl, fun _ _ _ => rfl⟩

theorem exec_thenCall (fuel i : Nat) (s f : Val) (w : World) :
    exec (fuel + 1) (.thenCall i s f) w =
      (match exec fuel (.doneCall i
          (.fn (.callAndFulfill w.nextP s))
          (.fn (.callAndReject w.nextP f))) (allocP w).2 with
       | (.ok _, w2) => (.ok (.pref w.nextP), w2)
       | (.error e, w2) => (.error e, w2)) := by
  simp [exec, allocP]

theorem hasCallableThen_isPromiseLike {x : Val}
    (h : hasCallableThen x = true) : isPromiseLike x = true := by
  cases x <;> simp_all [hasCallableThen, isPromiseLike]

/-- Every call preserves `Stable`: nothing the library does can mutate a
settled promise object or move the allocator backwards. -/
theorem execStable : ∀ fuel : Nat,
    (∀ c w, Stable w (exec fuel c w).2) ∧
    (∀ fs arg w, Stable w (runCbs fuel fs arg w)) ∧
    (∀ full rest L r w, Stable w (regLoop fuel full rest L r w).2) := by
  intro fuel
  induction fuel with
  | zero =>
    exact ⟨fun c w => Stable.refl w, fun fs arg w => Stable.refl w,
      fun full rest L r w => Stable.refl w⟩
  | succ n ih =>
    obtain ⟨ihe, ihr, ihg⟩ := ih
    refine ⟨?_, ?_, ?_⟩
    · intro c w
      cases c with
      | callf f arg =>
        cases f with
        | fulfillOf i => simp only [exec]; exact ihe (.fulfill i arg) w
        | rejectOf i => simp only [exec]; exact ihe (.reject i arg) w
        | callAndFulfill ret s =>
          have plain : ∀ w0 : World, Stable w w0 →
              Stable w (match exec n (.fulfill ret arg) w0 with
                | (.ok _, w1) => ((Except.ok Val.none : Except Val Val), w1)
                | (.error e, w1) => exec n (.reject ret e) w1).2 := by
            intro w0 hw0
            rcases hx : exec n (.fulfill ret arg) w0 with ⟨r1, w1⟩
            have s1 : Stable w w1 := by
              have h := ihe (.fulfill ret arg) w0; rw [hx] at h
              exact hw0.trans h
            cases r1 with
            | ok v => simp only [hx]; exact s1
            | error e => simp only [hx]; exact s1.trans (ihe (.reject ret e) w1)
          simp only [exec]
          cases s with
          | fn sf =>
            rcases hx : exec n (.callf sf arg) w with ⟨r1, w1⟩
            have s1 : Stable w w1 := by
              have h := ihe (.callf sf arg) w; rw [hx] at h; exact h
            cases r1 with
            | ok v =>
              simp only [hx]
              rcases hx2 : exec n (.fulfill ret v) w1 with ⟨r2, w2⟩
              have s2 : Stable w w2 := by
                have h := ihe (.fulfill ret v) w1; rw [hx2] at h
                exact s1.trans h
              cases r2 with
              | ok v2 => simp only [hx2]; exact s2
              | error e => simp only [hx2]; exact s2.trans (ihe (.reject ret e) w2)
            | error e => simp only [hx]; exact s1.trans (ihe (.reject ret e) w1)
          | none => exact plain w (Stable.refl w)
          | int k => exact plain w (Stable.refl w)
          | str sv => exact plain w (Stable.refl w)
          | list xs => exact plain w (Stable.refl w)
          | pref j => exact plain w (Stable.refl w)
          | thenable b j => exact plain w (Stable.refl w)
          | typeError m => exact plain w (Stable.refl w)
          | assertionError => exact plain w (Stable.refl w)
          | attrError => exact plain w (Stable.refl w)
          | fuelOut => exact plain w (Stable.refl w)
        | callAndReject ret fl =>
          have plain : ∀ w0 : World, Stable w w0 →
              Stable w (match exec n (.reject ret arg) w0 with
                | (.ok _, w1) => ((Except.ok Val.none : Except Val Val), w1)
                | (.error e, w1) => exec n (.reject ret e) w1).2 := by
            intro w0 hw0
            rcases hx : exec n (.reject ret arg) w0 with ⟨r1, w1⟩
            have s1 : Stable w w1 := by
              have h := ihe (.reject ret arg) w0; rw [hx] at h
              exact hw0.trans h
            cases r1 with
            | ok v => simp only [hx]; exact s1
            | error e => simp only [hx]; exact s1.trans (ihe (.reject ret e) w1)
          simp only [exec]
          cases fl with
          | fn ff =>
            rcases hx : exec n (.callf ff arg) w with ⟨r1, w1⟩
            have s1 : Stable w w1 := by
              have h := ihe (.callf ff arg) w; rw [hx] at h; exact h
            cases r1 with
            | ok v =>
              simp only [hx]
              rcases hx2 : exec n (.fulfill ret v) w1 with ⟨r2, w2⟩
              have s2 : Stable w w2 := by
                have h := ihe (.fulfill ret v) w1; rw [hx2] at h
                exact s1.trans h
              cases r2 with
              | ok v2 => simp only [hx2]; exact s2
              | error e => simp only [hx2]; exact s2.trans (ihe (.reject ret e) w2)
            | error e => simp only [hx]; exact s1.trans (ihe (.reject ret e) w1)
          | none => exact plain w (Stable.refl w)
          | int k => exact plain w (Stable.refl w)
          | str sv => exact plain w (Stable.refl w)
          | list xs => exact plain w (Stable.refl w)
          | pref j => exact plain w (Stable.refl w)
          | thenable b j => exact plain w (Stable.refl w)
          | typeError m => exact plain w (Stable.refl w)
          | assertionError => exact plain w (Stable.refl w)
          | attrError => exact plain w (Stable.refl w)
          | fuelOut => exact plain w (Stable.refl w)
        | listHandleSuccess L ps ret =>
          simp only [exec]
          by_cases hc : w.latch L ≤ 0
          · rw [if_pos hc]; exact Stable.refl w
          · rw [if_neg hc]
            by_cases hz : w.latch L - 1 = 0
            · rw [if_pos hz]
              cases hpv : pvalues (w.setL L (w.latch L - 1)) ps with
              | ok vs =>
                simp only [hpv]
                exact stable_setL.trans (ihe (.fulfill ret (.list vs)) _)
              | error e => simp only [hpv]; exact stable_setL
            · rw [if_neg hz]; exact stable_setL
        | constFn v => simp only [exec]; exact Stable.refl w
        | raiseFn e => simp only [exec]; exact Stable.refl w
      | fulfill i x =>
        simp only [exec]
        by_cases hself : isSelf x i = true
        · rw [if_pos hself]; exact Stable.refl w
        · rw [if_neg hself]
          by_cases hp : isPromiseLike x = true
          · rw [if_pos hp]
            rcases hx : exec n (.promisify x) w with ⟨r1, w1⟩
            have s1 : Stable w w1 := by
              have h := ihe (.promisify x) w; rw [hx] at h; exact h
            cases r1 with
            | ok v =>
              cases v with
              | pref p =>
                simp only [hx]
                rcases hx2 : exec n (.doneCall p (.fn (.fulfillOf i))
                    (.fn (.rejectOf i))) w1 with ⟨r2, w2⟩
                have s2 : Stable w w2 := by
                  have h := ihe (.doneCall p (.fn (.fulfillOf i))
                    (.fn (.rejectOf i))) w1
                  rw [hx2] at h; exact s1.trans h
                cases r2 with
                | ok v2 => simp only [hx2]; exact s2
                | error e => simp only [hx2]; exact s2.trans (ihe (.reject i e) w2)
              | none => simp only [hx]; exact s1.trans (ihe (.reject i .attrError) w1)
              | int k => simp only [hx]; exact s1.trans (ihe (.reject i .attrError) w1)
              | str sv => simp only [hx]; exact s1.trans (ihe (.reject i .attrError) w1)
              | list xs => simp only [hx]; exact s1.trans (ihe (.reject i .attrError) w1)
              | thenable b j => simp only [hx]; exact s1.trans (ihe (.reject i .attrError) w1)
              | fn ff => simp only [hx]; exact s1.trans (ihe (.reject i .attrError) w1)
              | typeError m => simp only [hx]; exact s1.trans (ihe (.reject i .attrError) w1)
              | assertionError => simp only [hx]; exact s1.trans (ihe (.reject i .attrError) w1)
              | attrError => simp only [hx]; exact s1.trans (ihe (.reject i .attrError) w1)
              | fuelOut => simp only [hx]; exact s1.trans (ihe (.reject i .attrError) w1)
            | error e => simp only [hx]; exact s1.trans (ihe (.reject i e) w1)
          · rw [if_neg hp]
            by_cases ht : hasCallableThen x = true
            · exact absurd (hasCallableThen_isPromiseLike ht) hp
            · rw [if_neg ht]; exact ihe (.fulfillPriv i x) w
      | fulfillPriv i v =>
        simp only [exec]
        by_cases hs : (w.mem i).state = PENDING
        · rw [if_pos hs]
          cases hcb : (w.mem i).callbacks with
          | some cbs =>
            simp only [hcb]
            exact (stable_setP_pending hs).trans (ihr cbs v _)
          | none => simp only [hcb]; exact stable_setP_pending hs
        · rw [if_neg hs]; exact Stable.refl w
      | reject i r =>
        simp only [exec]
        by_cases hs : (w.mem i).state = PENDING
        · rw [if_pos hs]
          cases heb : (w.mem i).errbacks with
          | some ebs =>
            simp only [heb]
            exact (stable_setP_pending hs).trans (ihr ebs r _)
          | none => simp only [heb]; exact stable_setP_pending hs
        · rw [if_neg hs]; exact Stable.refl w
      | addCallback i fv =>
        simp only [exec]
        by_cases hf : isFunction fv = true
        · rw [if_pos hf]
          cases fv with
          | fn f =>
            simp only []
            by_cases hsp : (w.mem i).state = PENDING
            · rw [if_pos hsp]
              cases hcb : (w.mem i).callbacks with
              | some cbs => simp only [hcb]; exact stable_setP_pending hsp
              | none => simp only [hcb]; exact Stable.refl w
            · rw [if_neg hsp]
              by_cases hsv : (w.mem i).state = FULFILLED
              · rw [if_pos hsv]
                rcases hx : exec n (.callf f (w.mem i).value) w with ⟨r1, w1⟩
                have s1 : Stable w w1 := by
                  have h := ihe (.callf f (w.mem i).value) w
                  rw [hx] at h; exact h
                cases r1 with
                | ok v => simp only [hx]; exact s1
                | error e => simp only [hx]; exact s1
              · rw [if_neg hsv]; exact Stable.refl w
          | none => simp [isFunction] at hf
          | int k => simp [isFunction] at hf
          | str sv => simp [isFunction] at hf
          | list xs => simp [isFunction] at hf
          | pref j => simp [isFunction] at hf
          | thenable b j => simp [isFunction] at hf
          | typeError m => simp [isFunction] at hf
          | assertionError => simp [isFunction] at hf
          | attrError => simp [isFunction] at hf
          | fuelOut => simp [isFunction] at hf
        · rw [if_neg hf]; exact Stable.refl w
      | addErrback i fv =>
        simp only [exec]
        by_cases hf : isFunction fv = true
        · rw [if_pos hf]
          cases fv with
          | fn f =>
            simp only []
            by_cases hsp : (w.mem i).state = PENDING
            · rw [if_pos hsp]
              cases heb : (w.mem i).errbacks with
              | some ebs => simp only [heb]; exact stable_setP_pending hsp
              | none => simp only [heb]; exact Stable.refl w
            · rw [if_neg hsp]
              by_cases hsv : (w.mem i).state = REJECTED
              · rw [if_pos hsv]
                rcases hx : exec n (.callf f (w.mem i).reason) w with ⟨r1, w1⟩
                have s1 : Stable w w1 := by
                  have h := ihe (.callf f (w.mem i).reason) w
                  rw [hx] at h; exact h
                cases r1 with
                | ok v => simp only [hx]; exact s1
                | error e => simp only [hx]; exact s1
              · rw [if_neg hsv]; exact Stable.refl w
          | none => simp [isFunction] at hf
          | int k => simp [isFunction] at hf
          | str sv => simp [isFunction] at hf
          | list xs => simp [isFunction] at hf
          | pref j => simp [isFunction] at hf
          | thenable b j => simp [isFunction] at hf
          | typeError m => simp [isFunction] at hf
          | assertionError => simp [isFunction] at hf
          | attrError => simp [isFunction] at hf
          | fuelOut => simp [isFunction] at hf
        · rw [if_neg hf]; exact Stable.refl w
      | doneCall i s f =>
        simp only [exec]
        by_cases hns : isNone s = true
        · rw [if_pos hns]
          show Stable w ((if isNone f = true
            then ((Except.ok Val.none : Except Val Val), w)
            else exec n (.addErrback i f) w)).2
          by_cases hnf : isNone f = true
          · rw [if_pos hnf]; exact Stable.refl w
          · rw [if_neg hnf]; exact ihe (.addErrback i f) w
        · rw [if_neg hns]
          rcases hx : exec n (.addCallback i s) w with ⟨r1, w1⟩
          have s1 : Stable w w1 := by
            have h := ihe (.addCallback i s) w; rw [hx] at h; exact h
          cases r1 with
          | ok v =>
            simp only [hx]
            by_cases hnf : isNone f = true
            · rw [if_pos hnf]; exact s1
            · rw [if_neg hnf]; exact s1.trans (ihe (.addErrback i f) w1)
          | error e => simp only [hx]; exact s1
      | thenCall i s f =>
        simp only [exec]
        rcases hA : allocP w with ⟨ret, W1⟩
        simp only [hA]
        have s0 : Stable w W1 := by
          have h := stable_allocP w; rw [hA] at h; exact h
        rcases hx : exec n (.doneCall i (.fn (.callAndFulfill ret s))
            (.fn (.callAndReject ret f))) W1 with ⟨r1, w1⟩
        have s1 : Stable w w1 := by
          have h := ihe (.doneCall i (.fn (.callAndFulfill ret s))
            (.fn (.callAndReject ret f))) W1
          rw [hx] at h; exact s0.trans h
        cases r1 with
        | ok v => simp only [hx]; exact s1
        | error e => simp only [hx]; exact s1
      | promisify x =>
        cases x with
        | thenable b j =>
          simp only [exec]
          rcases hA : allocP w with ⟨p, W1⟩
          simp only [hA]
          have s0 : Stable w W1 := by
            have h := stable_allocP w; rw [hA] at h; exact h
          rcases hx : exec n (.doneCall j (.fn (.fulfillOf p))
              (.fn (.rejectOf p))) W1 with ⟨r1, w1⟩
          have s1 : Stable w w1 := by
            have h := ihe (.doneCall j (.fn (.fulfillOf p))
              (.fn (.rejectOf p))) W1
            rw [hx] at h; exact s0.trans h
          cases r1 with
          | ok v => simp only [hx]; exact s1
          | error e => simp only [hx]; exact s1
        | none => simp only [exec]; exact Stable.refl w
        | int k => simp only [exec]; exact Stable.refl w
        | str sv => simp only [exec]; exact Stable.refl w
        | list xs => simp only [exec]; exact Stable.refl w
        | pref j => simp only [exec]; exact Stable.refl w
        | fn ff => simp only [exec]; exact Stable.refl w
        | typeError m => simp only [exec]; exact Stable.refl w
        | assertionError => simp only [exec]; exact Stable.refl w
        | attrError => simp only [exec]; exact Stable.refl w
        | fuelOut => simp only [exec]; exact Stable.refl w
      | mkValue x =>
        simp only [exec]
        rcases hA : allocP w with ⟨p, W1⟩
        simp only [hA]
        have s0 : Stable w W1 := by
          have h := stable_allocP w; rw [hA] at h; exact h
        rcases hx : exec n (.fulfill p x) W1 with ⟨r1, w1⟩
        have s1 : Stable w w1 := by
          have h := ihe (.fulfill p x) W1; rw [hx] at h; exact s0.trans h
        cases r1 with
        | ok v => simp only [hx]; exact s1
        | error e => simp only [hx]; exact s1
      | listPromise args =>
        simp only [exec]
        by_cases hlen : args.length = 0
        · rw [if_pos hlen]; exact ihe (.mkValue (.list [])) w
        · rw [if_neg hlen]
          rcases hA : allocP w with ⟨ret, W1⟩
          simp only [hA]
          rcases hL : allocL W1 (lpArgs args).length with ⟨L, W2⟩
          simp only [hL]
          have s0 : Stable w W2 := by
            have h1 := stable_allocP w; rw [hA] at h1
            have h2 := stable_allocL W1 (lpArgs args).length; rw [hL] at h2
            exact h1.trans h2
          rcases hx : regLoop n (lpArgs args) (lpArgs args) L ret W2
            with ⟨r1, w3⟩
          have s1 : Stable w w3 := by
            have h := ihg (lpArgs args) (lpArgs args) L ret W2
            rw [hx] at h; exact s0.trans h
          cases r1 with
          | ok v => simp only [hx]; exact s1
          | error e => simp only [hx]; exact s1
    · intro fs arg w
      cases fs with
      | nil => rw [runCbs_nil]; exact Stable.refl w
      | cons f fs2 =>
        rw [runCbs_cons]
        exact (ihe (.callf f arg) w).trans (ihr fs2 arg _)
    · intro full rest L r w
      cases rest with
      | nil => simp only [regLoop]; exact Stable.refl w
      | cons p rest2 =>
        simp only [regLoop]
        by_cases hp : isPromiseLike p = true
        · rw [if_pos hp]
          rcases hx1 : exec n (.promisify p) w with ⟨r1, w1⟩
          have s1 : Stable w w1 := by
            have h := ihe (.promisify p) w; rw [hx1] at h; exact h
          cases r1 with
          | ok v =>
            cases v with
            | pref pp =>
              simp only [hx1]
              rcases hx2 : exec n (.doneCall pp
                  (.fn (.listHandleSuccess L full r)) (.fn (.rejectOf r))) w1
                  with ⟨r2, w2⟩
              have s2 : Stable w w2 := by
                have h := ihe (.doneCall pp
                  (.fn (.listHandleSuccess L full r)) (.fn (.rejectOf r))) w1
                rw [hx2] at h; exact s1.trans h
              cases r2 with
              | ok v2 =>
                simp only [hx2]
                exact s2.trans (ihg full rest2 L r w2)
              | error e => simp only [hx2]; exact s2
            | none => simp only [hx1]; exact s1
            | int k => simp only [hx1]; exact s1
            | str sv => simp only [hx1]; exact s1
            | list xs => simp only [hx1]; exact s1
            | thenable b j => simp only [hx1]; exact s1
            | fn ff => simp only [hx1]; exact s1
            | typeError m => simp only [hx1]; exact s1
            | assertionError => simp only [hx1]; exact s1
            | attrError => simp only [hx1]; exact s1
            | fuelOut => simp only [hx1]; exact s1
          | error e => simp only [hx1]; exact s1
        · rw [if_neg hp]; exact Stable.refl w

/-! ## Consequences of the one-shot invariant -/

theorem exec_frozen (fuel : Nat) (c : Call) (w : World) (i : Nat)
    (hi : i < w.nextP) (hs : (w.mem i).state ≠ PENDING) :
    (exec fuel c w).2.mem i = w.mem i :=
  ((execStable fuel).1 c w).2 i hi hs

theorem runCbs_frozen (fuel : Nat) (fs : List Fn) (arg : Val) (w : World)
    (i : Nat) (hi : i < w.nextP) (hs : (w.mem i).state ≠ PENDING) :
    (runCbs fuel fs arg w).mem i = w.mem i :=
  ((execStable fuel).2.1 fs arg w).2 i hi hs

theorem isSelf_false_of_plain {x : Val} (h : isPromiseLike x = false)
    (i : Nat) : isSelf x i = false := by
  cases x <;> simp_all [isSelf, isPromiseLike]

theorem hasCallableThen_false_of_plain {x : Val}
    (h : isPromiseLike x = false) : hasCallableThen x = false := by
  cases x <;> simp_all [hasCallableThen, isPromiseLike]

/-! ## C2: fulfilling a promise with itself -/

/-- C2 (counterexample): `fulfill(p, p)` on a pending promise `p` does
not surface as a rejection of `p`; the `TypeError` ("Cannot resolve
promise with itself.") is raised to the caller of `fulfill` and the
promise is left Pending, refuting "never raises to the caller / always
surfaces as a rejection with SelfResolutionError". -/
theorem C2_counterexample :
    (exec 10 (.fulfill 0 (.pref 0)) w1P).1
        = .error (.typeError "Cannot resolve promise with itself.") ∧
    (exec 10 (.fulfill 0 (.pref 0)) w1P).2.mem 0 = freshPromise ∧
    ((exec 10 (.fulfill 0 (.pref 0)) w1P).2.mem 0).state = PENDING :=
  ⟨rfl, rfl, rfl⟩

/-- C2 (amended): for every heap and promise, `fulfill(p, p)` raises the
SelfResolutionError (`TypeError("Cannot resolve promise with itself.")`)
directly to the caller and leaves the heap — in particular the promise's
state — completely unchanged; no rejection of `p` takes place. -/
theorem C2_self_fulfill_raises_typeError (fuel i : Nat) (w : World) :
    exec (fuel + 1) (.fulfill i (.pref i)) w =
      (.error (.typeError "Cannot resolve promise with itself."), w) := by
  have hself : isSelf (.pref i) i = true := by simp [isSelf]
  simp [exec, hself]

/-! ## C1: settlement happens at most once -/

/-- C1 (counterexample): with promise 0 already fulfilled (value `5`) and
promise 1 pending, the further call `fulfill(0, promise 1)` returns
normally — no StateViolationError (AssertionError) reaches the caller —
because the resolution algorithm only registers callbacks on the pending
thenable; this refutes "any further fulfill or reject call raises
StateViolationError". -/
theorem C1_counterexample :
    (exec 10 (.fulfill 0 (.pref 1)) wSettled).1 = .ok .none ∧
    ((exec 10 (.fulfill 0 (.pref 1)) wSettled).2.mem 0).state = FULFILLED :=
  ⟨rfl, rfl⟩

/-- C1 (amended): a promise transitions at most once, Pending→Fulfilled
or Pending→Rejected.  Once it is non-Pending: any further `reject`
raises AssertionError (the StateViolationError) and leaves the heap
unchanged; any further `fulfill` with a non-thenable argument does the
same; and no library call whatsoever — including a further `fulfill`
with a thenable argument, which returns without raising — can change the
promise's state, value or reason. -/
theorem C1_settled_is_final (fuel i : Nat) (w : World) (x r : Val)
    (hs : (w.mem i).state ≠ PENDING) :
    exec (fuel + 1) (.reject i r) w = (.error .assertionError, w) ∧
    (isPromiseLike x = false →
      exec (fuel + 2) (.fulfill i x) w = (.error .assertionError, w)) ∧
    (∀ c : Call, i < w.nextP → (exec fuel c w).2.mem i = w.mem i) := by
  refine ⟨exec_reject_settled fuel i r w hs, fun hp => ?_,
    fun c hi => exec_frozen fuel c w i hi hs⟩
  rw [show fuel + 2 = (fuel + 1) + 1 from rfl,
    exec_fulfill_plain (fuel + 1) i x w (isSelf_false_of_plain hp i) hp
      (hasCallableThen_false_of_plain hp)]
  exact exec_fulfillPriv_settled fuel i x w hs

/-- Witness for `C1_settled_is_final` at the concrete heap `wSettled`. -/
theorem C1_settled_is_final_witness :
    exec 11 (.reject 0 (.str "r")) wSettled = (.error .assertionError, wSettled) ∧
    exec 12 (.fulfill 0 (.int 7)) wSettled = (.error .assertionError, wSettled) ∧
    (exec 10 (.thenCall 1 .none .none) wSettled).2.mem 0 = wSettled.mem 0 := by
  have h := C1_settled_is_final 10 0 wSettled (.int 7) (.str "r") (by decide)
  exact ⟨h.1, h.2.1 (by decide), h.2.2 (.thenCall 1 .none .none) (by decide)⟩

/-! ## C10: rejection stores the reason verbatim -/

/-- C10: `reject(p, r)` on a pending promise stores the reason verbatim —
for every reason `r`, including a promise or thenable — without invoking
the resolution algorithm: `p` ends Rejected with `reason` exactly `r` and
`value` untouched, and (when `p` has no registered errbacks) nothing else
in the heap is touched; in particular, no subscription is made on a
promise passed as the reason. -/
theorem C10_reject_stores_reason_verbatim (fuel i : Nat) (r vv rr : Val)
    (cb : Option (List Fn)) (ebs : List Fn) (w : World)
    (hi : i < w.nextP)
    (hm : w.mem i = ⟨PENDING, vv, rr, cb, some ebs⟩) :
    (exec (fuel + 1) (.reject i r) w).1 = .ok .none ∧
    (exec (fuel + 1) (.reject i r) w).2.mem i
        = ⟨REJECTED, vv, r, cb, Option.none⟩ ∧
    (ebs = [] →
      exec (fuel + 1) (.reject i r) w
        = (.ok .none, w.setP i ⟨REJECTED, vv, r, cb, Option.none⟩)) := by
  rw [exec_reject_pending fuel i r vv rr cb ebs w hm]
  have hmem : (w.setP i ⟨REJECTED, vv, r, cb, Option.none⟩).mem i
      = ⟨REJECTED, vv, r, cb, Option.none⟩ := by simp [World.setP]
  refine ⟨rfl, ?_, fun he => by subst he; rw [runCbs_nil]⟩
  rw [runCbs_frozen fuel ebs r _ i ?_ ?_]
  · exact hmem
  · simpa [World.setP] using hi
  · rw [hmem]; exact (by decide : REJECTED ≠ PENDING)

/-- Witness for `C10_reject_stores_reason_verbatim`: rejecting pending
promise 0 with promise 1 as the reason stores `pref 1` verbatim. -/
theorem C10_reject_stores_reason_verbatim_witness :
    (exec 10 (.reject 0 (.pref 1)) w2P).1 = .ok .none ∧
    (exec 10 (.reject 0 (.pref 1)) w2P).2.mem 0
        = ⟨REJECTED, .none, .pref 1, some [], Option.none⟩ := by
  have h := C10_reject_stores_reason_verbatim 9 0 (.pref 1) .none .none
    (some []) [] w2P (by decide) rfl
  exact ⟨h.1, h.2.1⟩

/-! ## C9: listPromise with several rejected inputs -/

/-- C9: evaluating the code at the failing input.  `listPromise` on two
already-rejected inputs rejects the result with the first input's reason
`"r1"`, but then the second input's immediately-invoked errback calls
`reject` on the already-settled result and the AssertionError escapes
`listPromise` to its caller instead of being a silent no-op. -/
theorem C9_two_rejected_inputs_crash :
    (exec 20 (.listPromise [.pref 0, .pref 1]) wTwoRejected).1
        = .error .assertionError ∧
    ((exec 20 (.listPromise [.pref 0, .pref 1]) wTwoRejected).2.mem 2).state
        = REJECTED ∧
    ((exec 20 (.listPromise [.pref 0, .pref 1]) wTwoRejected).2.mem 2).reason
        = .str "r1" :=
  ⟨rfl, rfl, rfl⟩

/-! ## C6: reaction failure policy -/

/-- C6 (counterexample): a raising reaction registered via `addCallback`
on an already-fulfilled promise is invoked immediately with no
try/except, and its error propagates to the caller of `addCallback`,
refuting "an error raised by f is caught and discarded ... never
propagates to the caller of ... addCallback or addErrback". -/
theorem C6_counterexample :
    exec 10 (.addCallback 0 (.fn (.raiseFn (.str "boom")))) wSettled
      = (.error (.str "boom"), wSettled) := rfl

/-- C6 (amended): reaction errors are swallowed exactly on the dispatch
path: `fulfill`/`reject` of a pending promise return normally no matter
what the registered reactions raise; but a reaction invoked immediately
by `addCallback`/`addErrback` on an already-settled promise is called
bare, and its error propagates to the caller of
`addCallback`/`addErrback`. -/
theorem C6_reaction_error_policy (fuel i : Nat) (v e vv rr : Val)
    (w : World) (cbs ebs : List Fn) :
    (w.mem i = ⟨PENDING, vv, rr, some cbs, some ebs⟩ →
      isPromiseLike v = false →
      ((exec (fuel + 2) (.fulfill i v) w).1 = .ok .none ∧
       (exec (fuel + 1) (.reject i v) w).1 = .ok .none)) ∧
    ((w.mem i).state = FULFILLED →
      exec (fuel + 2) (.addCallback i (.fn (.raiseFn e))) w
        = (.error e, w)) ∧
    ((w.mem i).state = REJECTED →
      exec (fuel + 2) (.addErrback i (.fn (.raiseFn e))) w
        = (.error e, w)) := by
  refine ⟨fun hm hp => ?_, fun hs => ?_, fun hs => ?_⟩
  · constructor
    · rw [show fuel + 2 = (fuel + 1) + 1 from rfl,
        exec_fulfill_plain (fuel + 1) i v w (isSelf_false_of_plain hp i) hp
          (hasCallableThen_false_of_plain hp),
        exec_fulfillPriv_pending fuel i v vv rr cbs (some ebs) w hm]
    · rw [exec_reject_pending fuel i v vv rr (some cbs) ebs w hm]
  · rw [show fuel + 2 = (fuel + 1) + 1 from rfl,
      exec_addCallback_fulfilled (fuel + 1) i (.raiseFn e) w hs]
    simp [exec]
  · rw [show fuel + 2 = (fuel + 1) + 1 from rfl,
      exec_addErrback_rejected (fuel + 1) i (.raiseFn e) w hs]
    simp [exec]

/-- Witness for `C6_reaction_error_policy`: fulfilling a pending promise
whose reactions all raise still returns normally, while `addCallback` /
`addErrback` on settled promises let the reaction's error escape. -/
theorem C6_reaction_error_policy_witness :
    (exec 12 (.fulfill 0 (.int 1)) wRaisers).1 = .ok .none ∧
    exec 12 (.addCallback 0 (.fn (.raiseFn (.str "boom")))) wSettled
      = (.error (.str "boom"), wSettled) ∧
    exec 12 (.addErrback 0 (.fn (.raiseFn (.str "boom")))) wTwoRejected
      = (.error (.str "boom"), wTwoRejected) := by
  refine ⟨((C6_reaction_error_policy 10 0 (.int 1) (.str "boom") .none .none
      wRaisers [.raiseFn (.str "cb")] [.raiseFn (.str "eb")]).1 rfl
      (by decide)).1, ?_, ?_⟩
  · exact (C6_reaction_error_policy 10 0 (.int 1) (.str "boom") .none .none
      wSettled [] []).2.1 (by decide)
  · exact (C6_reaction_error_policy 10 0 (.int 1) (.str "boom") .none .none
      wTwoRejected [] []).2.2 (by decide)

/-! ## C7: listPromise on empty input -/

/-- C7 (counterexample): `listPromise([])` — the single-argument call
passing an empty sequence — returns a promise that is still Pending, not
one already Fulfilled with an empty sequence, refuting the claim for
that call shape. -/
theorem C7_counterexample :
    (exec 10 (.listPromise [.list []]) emptyWorld).1 = .ok (.pref 0) ∧
    (exec 10 (.listPromise [.list []]) emptyWorld).2.mem 0 = freshPromise ∧
    ((exec 10 (.listPromise [.list []]) emptyWorld).2.mem 0).state = PENDING :=
  ⟨rfl, rfl, rfl⟩

/-- C7 (amended): the zero-argument call `listPromise()` returns a fresh
promise already Fulfilled with the empty list; the single-argument call
`listPromise([])` with an empty sequence instead returns a fresh promise
that is Pending (its countdown latch starts at 0, no reaction is ever
registered, and nothing can ever settle it). -/
theorem C7_listPromise_empty (fuel : Nat) (w : World) :
    exec (fuel + 4) (.listPromise ([] : List Val)) w
      = (.ok (.pref w.nextP), (allocP w).2.setP w.nextP
          ⟨FULFILLED, .list [], .none, Option.none, some []⟩) ∧
    (exec (fuel + 4) (.listPromise [.list []]) w).1 = .ok (.pref w.nextP) ∧
    (exec (fuel + 4) (.listPromise [.list []]) w).2.mem w.nextP
      = freshPromise := by
  refine ⟨?_, ?_, ?_⟩
  · simp [exec, allocP, World.setP, freshPromise, PENDING, isSelf,
      isPromiseLike, hasCallableThen, runCbs_nil]
  · simp [exec, lpArgs, allocP, allocL, World.setP, World.setL, regLoop]
  · simp [exec, lpArgs, allocP, allocL, World.setP, World.setL, regLoop]

/-! ## C4: then() with no handlers passes the outcome through -/

/-- C4: on a settled promise, `then()` with no handlers returns a fresh
promise that settles with the same outcome, unchanged in kind and
content: if `p` is Fulfilled with (plain) value `v` the returned promise
is Fulfilled with `v`; if `p` is Rejected with reason `r` it is Rejected
with `r`. -/
theorem C4_then_without_handlers (fuel i : Nat) (v r : Val) (w : World)
    (hi : i < w.nextP) :
    ((w.mem i).state = FULFILLED → (w.mem i).value = v →
      isPromiseLike v = false →
      (exec (fuel + 7) (.thenCall i .none .none) w).1 = .ok (.pref w.nextP) ∧
      (exec (fuel + 7) (.thenCall i .none .none) w).2.mem w.nextP
        = ⟨FULFILLED, v, .none, Option.none, some []⟩) ∧
    ((w.mem i).state = REJECTED → (w.mem i).reason = r →
      (exec (fuel + 7) (.thenCall i .none .none) w).1 = .ok (.pref w.nextP) ∧
      (exec (fuel + 7) (.thenCall i .none .none) w).2.mem w.nextP
        = ⟨REJECTED, .none, r, some [], Option.none⟩) := by
  have hne : ¬(i = w.nextP) := Nat.ne_of_lt hi
  have hfp : ¬(FULFILLED = PENDING) := by decide
  have hrp : ¬(REJECTED = PENDING) := by decide
  have hrf : ¬(REJECTED = FULFILLED) := by decide
  have hfr : ¬(FULFILLED = REJECTED) := by decide
  constructor
  · intro hs hv hp
    simp [exec, allocP, World.setP, isNone, isFunction, runCbs_nil,
      isSelf_false_of_plain hp, hp, hasCallableThen_false_of_plain hp,
      hne, hs, hv, hfp, hfr, freshPromise]
  · intro hs hr
    simp [exec, allocP, World.setP, isNone, isFunction, runCbs_nil,
      hne, hs, hr, hrp, hrf, freshPromise]

/-- Witness for `C4_then_without_handlers` on the concrete heaps
`wSettled` (fulfilled with `5`) and `wTwoRejected` (rejected with
`"r1"`). -/
theorem C4_then_without_handlers_witness :
    (exec 17 (.thenCall 0 .none .none) wSettled).1 = .ok (.pref 2) ∧
    (exec 17 (.thenCall 0 .none .none) wSettled).2.mem 2
      = ⟨FULFILLED, .int 5, .none, Option.none, some []⟩ ∧
    (exec 17 (.thenCall 0 .none .none) wTwoRejected).2.mem 2
      = ⟨REJECTED, .none, .str "r1", some [], Option.none⟩ := by
  refine ⟨?_, ?_, ?_⟩
  · exact ((C4_then_without_handlers 10 0 (.int 5) .none wSettled
      (by decide)).1 rfl rfl (by decide)).1
  · exact ((C4_then_without_handlers 10 0 (.int 5) .none wSettled
      (by decide)).1 rfl rfl (by decide)).2
  · exact ((C4_then_without_handlers 10 0 .none (.str "r1") wTwoRejected
      (by decide)).2 rfl rfl).2

/-! ## C5: then() with callable handlers -/

/-- C5: `then(onSuccess, onFailure)` handler semantics on a settled
promise.  On a fulfilled promise: a handler returning a plain value `u`
fulfills the returned promise with `u`; a handler raising `e` rejects it
with `e`.  On a rejected promise: a returning `onFailure` fulfills the
returned promise with its return value (error recovery); a raising
`onFailure` rejects it with the raised error. -/
theorem C5_then_handler_semantics (fuel i : Nat) (u e : Val) (w : World)
    (hi : i < w.nextP) (hu : isPromiseLike u = false) :
    ((w.mem i).state = FULFILLED →
      (exec (fuel + 8) (.thenCall i (.fn (.constFn u)) .none) w).1
        = .ok (.pref w.nextP) ∧
      (exec (fuel + 8) (.thenCall i (.fn (.constFn u)) .none) w).2.mem w.nextP
        = ⟨FULFILLED, u, .none, Option.none, some []⟩ ∧
      (exec (fuel + 8) (.thenCall i (.fn (.raiseFn e)) .none) w).2.mem w.nextP
        = ⟨REJECTED, .none, e, some [], Option.none⟩) ∧
    ((w.mem i).state = REJECTED →
      (exec (fuel + 8) (.thenCall i .none (.fn (.constFn u))) w).2.mem w.nextP
        = ⟨FULFILLED, u, .none, Option.none, some []⟩ ∧
      (exec (fuel + 8) (.thenCall i .none (.fn (.raiseFn e))) w).2.mem w.nextP
        = ⟨REJECTED, .none, e, some [], Option.none⟩) := by
  have hne : ¬(i = w.nextP) := Nat.ne_of_lt hi
  have hfp : ¬(FULFILLED = PENDING) := by decide
  have hrp : ¬(REJECTED = PENDING) := by decide
  have hrf : ¬(REJECTED = FULFILLED) := by decide
  have hfr : ¬(FULFILLED = REJECTED) := by decide
  constructor
  · intro hs
    refine ⟨?_, ?_, ?_⟩ <;>
      simp [exec, allocP, World.setP, isNone, isFunction, runCbs_nil,
        isSelf_false_of_plain hu, hu, hasCallableThen_false_of_plain hu,
        hne, hs, hfp, hfr, freshPromise]
  · intro hs
    constructor <;>
      simp [exec, allocP, World.setP, isNone, isFunction, runCbs_nil,
        isSelf_false_of_plain hu, hu, hasCallableThen_false_of_plain hu,
        hne, hs, hrp, hrf, freshPromise]

/-- Witness for `C5_then_handler_semantics` on the concrete heaps
`wSettled` and `wTwoRejected` with handlers returning `9` or raising
`"E"`. -/
theorem C5_then_handler_semantics_witness :
    (exec 18 (.thenCall 0 (.fn (.constFn (.int 9))) .none) wSettled).2.mem 2
      = ⟨FULFILLED, .int 9, .none, Option.none, some []⟩ ∧
    (exec 18 (.thenCall 0 (.fn (.raiseFn (.str "E"))) .none) wSettled).2.mem 2
      = ⟨REJECTED, .none, .str "E", some [], Option.none⟩ ∧
    (exec 18 (.thenCall 0 .none (.fn (.constFn (.int 9)))) wTwoRejected).2.mem 2
      = ⟨FULFILLED, .int 9, .none, Option.none, some []⟩ ∧
    (exec 18 (.thenCall 0 .none (.fn (.raiseFn (.str "E")))) wTwoRejected).2.mem 2
      = ⟨REJECTED, .none, .str "E", some [], Option.none⟩ := by
  refine ⟨?_, ?_, ?_, ?_⟩
  · exact ((C5_then_handler_semantics 10 0 (.int 9) (.str "E") wSettled
      (by decide) (by decide)).1 rfl).2.1
  · exact ((C5_then_handler_semantics 10 0 (.int 9) (.str "E") wSettled
      (by decide) (by decide)).1 rfl).2.2
  · exact ((C5_then_handler_semantics 10 0 (.int 9) (.str "E") wTwoRejected
      (by decide) (by decide)).2 rfl).1
  · exact ((C5_then_handler_semantics 10 0 (.int 9) (.str "E") wTwoRejected
      (by decide) (by decide)).2 rfl).2

/-! ## C3: adopting a thenable mirrors its outcome -/

theorem exec_callf_fulfillOf (fuel i : Nat) (arg : Val) (w : World) :
    exec (fuel + 1) (.callf (.fulfillOf i) arg) w
      = exec fuel (.fulfill i arg) w := by
  simp [exec]

theorem exec_callf_rejectOf (fuel i : Nat) (arg : Val) (w : World) :
    exec (fuel + 1) (.callf (.rejectOf i) arg) w
      = exec fuel (.reject i arg) w := by
  simp [exec]

theorem exec_promisify_pref (fuel p : Nat) (w : World) :
    exec (fuel + 1) (.promisify (.pref p)) w = (.ok (.pref p), w) := by
  simp [exec]

/-- After `linkAll k`, every chain promise `1 ≤ j ≤ k` is pending with
its predecessor's `fulfill`/`reject` bound methods registered, and every
other promise is untouched. -/
theorem linkAll_shape (n : Nat) : ∀ k : Nat,
    (∀ j, 1 ≤ j → j ≤ k → (linkAll k (wN n)).mem j
        = ⟨PENDING, .none, .none, some [.fulfillOf (j - 1)],
           some [.rejectOf (j - 1)]⟩) ∧
    (∀ j, j = 0 ∨ k < j → (linkAll k (wN n)).mem j = freshPromise) := by
  intro k
  induction k with
  | zero =>
    exact ⟨fun j h1 h2 => absurd (le_trans h1 h2) (by omega),
      fun j _ => rfl⟩
  | succ k ih =>
    obtain ⟨ih1, ih2⟩ := ih
    have hk : (linkAll k (wN n)).mem (k + 1) = freshPromise :=
      ih2 (k + 1) (Or.inr (by omega))
    constructor
    · intro j h1 h2
      show ((exec 10 (.fulfill k (.pref (k + 1)))
        (linkAll k (wN n))).2).mem j = _
      by_cases hj : j = k + 1
      · subst hj
        simp [exec, isSelf, isPromiseLike, isNone, isFunction,
          World.setP, freshPromise, hk]
      · have hjk : j ≤ k := by omega
        simp [exec, isSelf, isPromiseLike, isNone, isFunction,
          World.setP, freshPromise, hk, hj]
        exact ih1 j h1 hjk
    · intro j hj
      have hjne : ¬(j = k + 1) := by omega
      show ((exec 10 (.fulfill k (.pref (k + 1)))
        (linkAll k (wN n))).2).mem j = _
      simp [exec, isSelf, isPromiseLike, isNone, isFunction,
        World.setP, freshPromise, hk, hjne]
      exact ih2 j (by omega)

/-- Cascade: in a heap whose promises `1 .. k` form the adoption chain
and whose promise 0 is fresh, fulfilling promise `k` with a plain value
ripples all the way down: promises `0 .. k` all become Fulfilled with
that value, and nothing else changes. -/
theorem chain_cascade (v : Val) (hv : isPromiseLike v = false) :
    ∀ k fuel (W : World), 5 * k + 5 ≤ fuel →
    (∀ j, 1 ≤ j → j ≤ k → W.mem j
        = ⟨PENDING, .none, .none, some [.fulfillOf (j - 1)],
           some [.rejectOf (j - 1)]⟩) →
    W.mem 0 = freshPromise →
    (exec fuel (.fulfill k v) W).1 = .ok .none ∧
    (exec fuel (.fulfill k v) W).2.mem 0
        = ⟨FULFILLED, v, .none, Option.none, some []⟩ ∧
    (∀ j, 1 ≤ j → j ≤ k → (exec fuel (.fulfill k v) W).2.mem j
        = ⟨FULFILLED, v, .none, Option.none, some [.rejectOf (j - 1)]⟩) ∧
    (∀ j, k < j → (exec fuel (.fulfill k v) W).2.mem j = W.mem j) := by
  intro k
  induction k with
  | zero =>
    intro fuel W hf hsh h0
    obtain ⟨m, rfl⟩ : ∃ m, fuel = m + 2 := ⟨fuel - 2, by omega⟩
    rw [show m + 2 = (m + 1) + 1 from rfl,
      exec_fulfill_plain (m + 1) 0 v W (isSelf_false_of_plain hv 0) hv
        (hasCallableThen_false_of_plain hv),
      exec_fulfillPriv_pending m 0 v .none .none [] (some []) W
        (by rw [h0]; rfl),
      runCbs_nil]
    refine ⟨rfl, by simp [World.setP], fun j h1 h2 => absurd (le_trans h1 h2) (by omega),
      fun j hj => by simp [World.setP]; omega⟩
  | succ k ih =>
    intro fuel W hf hsh h0
    obtain ⟨m, rfl⟩ : ∃ m, fuel = m + 2 := ⟨fuel - 2, by omega⟩
    have hm1 : W.mem (k + 1)
        = ⟨PENDING, .none, .none, some [.fulfillOf k], some [.rejectOf k]⟩ := by
      have h := hsh (k + 1) (by omega) (by omega)
      simpa using h
    rw [show m + 2 = (m + 1) + 1 from rfl,
      exec_fulfill_plain (m + 1) (k + 1) v W
        (isSelf_false_of_plain hv (k + 1)) hv
        (hasCallableThen_false_of_plain hv),
      exec_fulfillPriv_pending m (k + 1) v .none .none [.fulfillOf k]
        (some [.rejectOf k]) W hm1]
    obtain ⟨m2, rfl⟩ : ∃ m2, m = m2 + 1 := ⟨m - 1, by omega⟩
    rw [runCbs_cons, runCbs_nil]
    obtain ⟨m3, rfl⟩ : ∃ m3, m2 = m3 + 1 := ⟨m2 - 1, by omega⟩
    rw [exec_callf_fulfillOf]
    have hW1sh : ∀ j, 1 ≤ j → j ≤ k →
        (W.setP (k + 1) ⟨FULFILLED, v, .none, Option.none,
          some [.rejectOf k]⟩).mem j
        = ⟨PENDING, .none, .none, some [.fulfillOf (j - 1)],
           some [.rejectOf (j - 1)]⟩ := by
      intro j h1 h2
      have : ¬(j = k + 1) := by omega
      simp [World.setP, this]
      exact hsh j h1 (by omega)
    have hW10 : (W.setP (k + 1) ⟨FULFILLED, v, .none, Option.none,
        some [.rejectOf k]⟩).mem 0 = freshPromise := by
      simp [World.setP]
      exact h0
    have ihp := ih m3 _ (by omega) hW1sh hW10
    obtain ⟨ih0, ihA, ihMid, ihHigh⟩ := ihp
    refine ⟨rfl, ihA, ?_, ?_⟩
    · intro j h1 h2
      by_cases hj : j = k + 1
      · subst hj
        rw [ihHigh (k + 1) (by omega)]
        simp [World.setP]
      · have := ihMid j h1 (by omega)
        exact this
    · intro j hj
      rw [ihHigh j (by omega)]
      simp [World.setP]
      omega

/-- Fulfilling a promise whose only callback is another promise's bound
`fulfill` method settles it and forwards the value to that promise. -/
theorem exec_fulfill_one_link (fuel a b : Nat) (v rr : Val)
    (eb : Option (List Fn)) (W : World) (hv : isPromiseLike v = false)
    (hm : W.mem a = ⟨PENDING, .none, rr, some [.fulfillOf b], eb⟩) :
    exec (fuel + 5) (.fulfill a v) W
      = (.ok .none, (exec (fuel + 1) (.fulfill b v)
          (W.setP a ⟨FULFILLED, v, rr, Option.none, eb⟩)).2) := by
  rw [show fuel + 5 = (fuel + 4) + 1 from rfl,
    exec_fulfill_plain (fuel + 4) a v W (isSelf_false_of_plain hv a) hv
      (hasCallableThen_false_of_plain hv),
    exec_fulfillPriv_pending (fuel + 3) a v .none rr [.fulfillOf b] eb W hm,
    show fuel + 3 = (fuel + 2) + 1 from rfl, runCbs_cons, runCbs_nil,
    exec_callf_fulfillOf]

/-- Fulfilling a promise with no registered callbacks just settles it. -/
theorem exec_fulfill_leaf (fuel a : Nat) (v rr : Val)
    (eb : Option (List Fn)) (W : World) (hv : isPromiseLike v = false)
    (hm : W.mem a = ⟨PENDING, .none, rr, some [], eb⟩) :
    exec (fuel + 2) (.fulfill a v) W
      = (.ok .none, W.setP a ⟨FULFILLED, v, rr, Option.none, eb⟩) := by
  rw [show fuel + 2 = (fuel + 1) + 1 from rfl,
    exec_fulfill_plain (fuel + 1) a v W (isSelf_false_of_plain hv a) hv
      (hasCallableThen_false_of_plain hv),
    exec_fulfillPriv_pending fuel a v .none rr [] eb W hm, runCbs_nil]

/-- C3: fulfilling a pending promise A with a thenable B does not settle
A with B itself — A's eventual outcome mirrors B's outcome.
(a) For every chain length `n ≥ 1` (promise 0 adopting promise 1
adopting … promise `n`) and every plain value `v`, fulfilling the end of
the chain with `v` eventually leaves promise 0 Fulfilled with `v`.
(b) After promise 0 adopts promise 1, rejecting promise 1 with any
reason `r` leaves promise 0 Rejected with `r`.
(c) The same value-mirroring holds when B is a foreign thenable of
either shape (`done`- or `then`-exposing) wrapping a pending promise. -/
theorem C3_thenable_adoption_mirrors_outcome (n : Nat) (v r : Val)
    (db : Bool) (_hn : 1 ≤ n) (hv : isPromiseLike v = false) :
    ((exec (5 * n + 5) (.fulfill n v) (linkAll n (wN n))).1 = .ok .none ∧
     (exec (5 * n + 5) (.fulfill n v) (linkAll n (wN n))).2.mem 0
       = ⟨FULFILLED, v, .none, Option.none, some []⟩) ∧
    ((exec 10 (.reject 1 r) (linkAll 1 (wN 1))).2.mem 0
       = ⟨REJECTED, .none, r, some [], Option.none⟩) ∧
    (((exec 10 (.fulfill 1 v)
        (exec 10 (.fulfill 0 (.thenable db 1)) w2P).2).2.mem 0).state
          = FULFILLED ∧
     ((exec 10 (.fulfill 1 v)
        (exec 10 (.fulfill 0 (.thenable db 1)) w2P).2).2.mem 0).value = v) := by
  refine ⟨?_, ?_, ?_⟩
  · have h := chain_cascade v hv n (5 * n + 5) (linkAll n (wN n)) le_rfl
      (linkAll_shape n n).1 ((linkAll_shape n n).2 0 (Or.inl rfl))
    exact ⟨h.1, h.2.1⟩
  · have h1 := (linkAll_shape 1 1).1 1 le_rfl le_rfl
    have h0 := (linkAll_shape 1 1).2 0 (Or.inl rfl)
    rw [show (10 : Nat) = 9 + 1 from rfl,
      exec_reject_pending 9 1 r .none .none (some [.fulfillOf 0])
        [.rejectOf 0] _ (by simpa using h1)]
    rw [show (9 : Nat) = 8 + 1 from rfl, runCbs_cons, runCbs_nil,
      exec_callf_rejectOf]
    rw [show (7 : Nat) = 6 + 1 from rfl,
      exec_reject_pending 6 0 r .none .none (some []) [] _
        (by simp [World.setP, h0, freshPromise]),
      runCbs_nil]
    simp [World.setP]
  · rw [show (10 : Nat) = 5 + 5 from rfl,
      exec_fulfill_one_link 5 1 2 v .none (some [.rejectOf 2]) _ hv rfl,
      show (5 : Nat) + 1 = 1 + 5 from rfl,
      exec_fulfill_one_link 1 2 0 v .none (some [.rejectOf 0]) _ hv rfl,
      show (1 : Nat) + 1 = 0 + 2 from rfl,
      exec_fulfill_leaf 0 0 v .none (some []) _ hv rfl]
    exact ⟨rfl, rfl⟩

/-- Witness for `C3_thenable_adoption_mirrors_outcome`: a chain of three
thenables fulfilled with `7`, a rejection with `"R"`, and a `done`-shaped
foreign thenable. -/
theorem C3_thenable_adoption_mirrors_outcome_witness :
    (exec 20 (.fulfill 3 (.int 7)) (linkAll 3 (wN 3))).2.mem 0
      = ⟨FULFILLED, .int 7, .none, Option.none, some []⟩ ∧
    (exec 10 (.reject 1 (.str "R")) (linkAll 1 (wN 1))).2.mem 0
      = ⟨REJECTED, .none, .str "R", some [], Option.none⟩ ∧
    ((exec 10 (.fulfill 1 (.int 7))
        (exec 10 (.fulfill 0 (.thenable true 1)) w2P).2).2.mem 0).value
      = .int 7 := by
  have h := C3_thenable_adoption_mirrors_outcome 3 (.int 7) (.str "R")
    true (by decide) (by decide)
  exact ⟨h.1.2, h.2.1, h.2.2.2⟩

/-! ## C8: listPromise fulfills with the inputs' values in input order -/

theorem setP_latch (w : World) (i : Nat) (o : PromiseObj) :
    (w.setP i o).latch = w.latch := rfl

theorem setP_nextP (w : World) (i : Nat) (o : PromiseObj) :
    (w.setP i o).nextP = w.nextP := rfl

theorem setL_mem (w : World) (i : Nat) (c : Int) :
    (w.setL i c).mem = w.mem := rfl

theorem lpArgs_map_pref (js : List Nat) :
    lpArgs (js.map Val.pref) = js.map Val.pref := by
  cases js with
  | nil => rfl
  | cons j js2 => cases js2 <;> rfl

theorem pvalues_map (vals : Nat → Val) :
    ∀ (js : List Nat) (w : World),
    (∀ j ∈ js, (w.mem j).value = vals j) →
    pvalues w (js.map Val.pref) = .ok (js.map vals) := by
  intro js
  induction js with
  | nil => intro w _; rfl
  | cons j js2 ih =>
    intro w h
    have hj : (w.mem j).value = vals j := h j (List.mem_cons_self j js2)
    have hrest := ih w (fun j2 hj2 => h j2 (List.mem_cons_of_mem j hj2))
    simp [pvalues, pvalue, hj, hrest]

/-- The `counter.dec()` step of `handleSuccess`, for a latch that is
still positive. -/
theorem exec_callf_listHS (fuel L : Nat) (ps : List Val) (ret : Nat)
    (arg : Val) (w : World) (hpos : 0 < w.latch L) :
    exec (fuel + 1) (.callf (.listHandleSuccess L ps ret) arg) w
      = (if w.latch L - 1 = 0 then
           match pvalues (w.setL L (w.latch L - 1)) ps with
           | .ok vs => exec fuel (.fulfill ret (.list vs))
               (w.setL L (w.latch L - 1))
           | .error e => (.error e, w.setL L (w.latch L - 1))
         else (.ok .none, w.setL L (w.latch L - 1))) := by
  have hng : ¬(w.latch L ≤ 0) := by omega
  simp [exec, hng]

/-- The registration loop of `listPromise` over pending promise inputs:
every listed promise gets the `handleSuccess` closure and `ret.reject`
registered, and nothing else changes. -/
theorem regLoop_registers (L ret : Nat) (full : List Val) :
    ∀ (js : List Nat) (fuel : Nat) (w : World),
    js.Nodup → (∀ j ∈ js, w.mem j = freshPromise) →
    js.length + 4 ≤ fuel →
    (regLoop fuel full (js.map Val.pref) L ret w).1 = .ok .none ∧
    (∀ j ∈ js, (regLoop fuel full (js.map Val.pref) L ret w).2.mem j
        = lpRegObj L full ret) ∧
    (∀ i, i ∉ js → (regLoop fuel full (js.map Val.pref) L ret w).2.mem i
        = w.mem i) ∧
    (regLoop fuel full (js.map Val.pref) L ret w).2.latch = w.latch ∧
    (regLoop fuel full (js.map Val.pref) L ret w).2.nextP = w.nextP := by
  intro js
  induction js with
  | nil =>
    intro fuel w _ _ hf
    obtain ⟨m, rfl⟩ : ∃ m, fuel = m + 1 := ⟨fuel - 1, by omega⟩
    exact ⟨rfl, fun j hj => absurd hj (List.not_mem_nil j), fun i _ => rfl,
      rfl, rfl⟩
  | cons j js2 ih =>
    intro fuel w hnd hfresh hf
    obtain ⟨m, rfl⟩ : ∃ m, fuel = m + 1 := ⟨fuel - 1, by omega⟩
    obtain ⟨m2, rfl⟩ : ∃ m2, m = m2 + 1 := ⟨m - 1, by omega⟩
    have hmj : w.mem j = ⟨PENDING, .none, .none, some [], some []⟩ := by
      rw [hfresh j (List.mem_cons_self j js2)]; rfl
    have hstep : regLoop (m2 + 1 + 1) full ((j :: js2).map Val.pref) L ret w
        = regLoop (m2 + 1) full (js2.map Val.pref) L ret
            ((w.setP j ⟨PENDING, .none, .none,
                some [.listHandleSuccess L full ret], some []⟩).setP j
              (lpRegObj L full ret)) := by
      rw [List.map_cons]
      simp only [regLoop]
      rw [if_pos (by rfl : isPromiseLike (.pref j) = true),
        exec_promisify_pref m2 j w]
      simp only []
      rw [exec_doneCall_fns m2 j]
      obtain ⟨m3, rfl⟩ : ∃ m3, m2 = m3 + 1 := ⟨m2 - 1, by omega⟩
      rw [exec_addCallback_pending m3 j (.listHandleSuccess L full ret)
        .none .none [] (some []) w hmj]
      simp only []
      rw [exec_addErrback_pending m3 j (.rejectOf ret) .none .none
        (some [.listHandleSuccess L full ret]) [] _ (by simp [World.setP])]
      rfl
    rw [hstep]
    have hnd2 : js2.Nodup := (List.nodup_cons.1 hnd).2
    have hjnot : j ∉ js2 := (List.nodup_cons.1 hnd).1
    have hfresh2 : ∀ j2 ∈ js2,
        ((w.setP j ⟨PENDING, .none, .none,
            some [.listHandleSuccess L full ret], some []⟩).setP j
          (lpRegObj L full ret)).mem j2 = freshPromise := by
      intro j2 hj2
      have hne : ¬(j2 = j) := fun he => hjnot (he ▸ hj2)
      simp [World.setP, hne]
      exact hfresh j2 (List.mem_cons_of_mem j hj2)
    have hih := ih (m2 + 1) _ hnd2 hfresh2 (by simp at hf ⊢; omega)
    obtain ⟨ih1, ih2, ih3, ih4, ih5⟩ := hih
    refine ⟨ih1, ?_, ?_, ?_, ?_⟩
    · intro j2 hj2
      rcases List.mem_cons.1 hj2 with he | hin
      · subst he
        rw [ih3 j2 hjnot]
        simp [World.setP]
      · exact ih2 j2 hin
    · intro i hi
      have hi2 : i ∉ js2 := fun hin => hi (List.mem_cons_of_mem j hin)
      have hij : ¬(i = j) := fun he => hi (he ▸ List.mem_cons_self j js2)
      rw [ih3 i hi2]
      simp [World.setP, hij]
    · rw [ih4]; rfl
    · rw [ih5]; rfl

/-- Settling the inputs of `listPromise` in any order: as long as the
remaining inputs are exactly the still-pending registered ones and the
latch equals their count, fulfilling them all (in the given order, each
with its own value) leaves the result promise Fulfilled with the list of
values in input order. -/
theorem settleAll_gathers (n : Nat) (vals : Nat → Val)
    (hv : ∀ j, isPromiseLike (vals j) = false) :
    ∀ (rem : List Nat) (w : World),
    rem ≠ [] → rem.Nodup → (∀ j ∈ rem, j < n) →
    (∀ j, j < n → j ∈ rem → w.mem j = lpRegObj 0 (prefs n) n) →
    (∀ j, j < n → j ∉ rem → w.mem j
        = ⟨FULFILLED, vals j, .none, Option.none, some [.rejectOf n]⟩) →
    w.mem n = freshPromise →
    w.latch 0 = (rem.length : Int) →
    (settleAll vals rem w).mem n
      = ⟨FULFILLED, .list ((List.range n).map vals), .none,
         Option.none, some []⟩ := by
  intro rem
  induction rem with
  | nil => intro w hne; exact absurd rfl hne
  | cons j js ih =>
    intro w _ hnd hbound hpend hdone hfreshN hlatch
    have hjn : j < n := hbound j (List.mem_cons_self j js)
    have hjne : ¬(j = n) := by omega
    have hmj : w.mem j = ⟨PENDING, .none, .none,
        some [.listHandleSuccess 0 (prefs n) n], some [.rejectOf n]⟩ := by
      rw [hpend j hjn (List.mem_cons_self j js)]; rfl
    simp only [settleAll]
    rw [show (20 : Nat) = 19 + 1 from rfl,
      exec_fulfill_plain 19 j (vals j) w (isSelf_false_of_plain (hv j) j)
        (hv j) (hasCallableThen_false_of_plain (hv j)),
      exec_fulfillPriv_pending 18 j (vals j) .none .none
        [.listHandleSuccess 0 (prefs n) n] (some [.rejectOf n]) w hmj,
      show (18 : Nat) = 17 + 1 from rfl, runCbs_cons, runCbs_nil]
    have hl1 : (w.setP j ⟨FULFILLED, vals j, .none, Option.none,
        some [.rejectOf n]⟩).latch 0 = (js.length : Int) + 1 := by
      rw [setP_latch, hlatch]; simp [List.length_cons]
    rw [show (17 : Nat) = 16 + 1 from rfl,
      exec_callf_listHS 16 0 (prefs n) n (vals j) _ (by rw [hl1]; omega),
      hl1, show ((js.length : Int) + 1) - 1 = (js.length : Int) from by ring]
    by_cases hjs : js = []
    · subst hjs
      rw [if_pos (by simp)]
      have hpv : pvalues ((w.setP j ⟨FULFILLED, vals j, .none, Option.none,
          some [.rejectOf n]⟩).setL 0 ((List.length ([] : List Nat) : Int)))
          (prefs n) = .ok ((List.range n).map vals) := by
        apply pvalues_map
        intro j2 hj2
        have hj2n : j2 < n := List.mem_range.1 hj2
        rw [setL_mem]
        by_cases he : j2 = j
        · subst he; simp [World.setP]
        · simp [World.setP, he]
          rw [hdone j2 hj2n (by simp [he])]
      simp only [hpv]
      rw [show (16 : Nat) = 14 + 2 from rfl,
        exec_fulfill_leaf 14 n (.list ((List.range n).map vals)) .none
          (some []) _ (by rfl) ?hfr]
      case hfr =>
        rw [setL_mem]
        have : ¬(n = j) := fun he => hjne he.symm
        simp [World.setP, this]
        rw [hfreshN]; rfl
      simp only [settleAll]
      simp [World.setP]
    · rw [if_neg (by
        have : 0 < js.length := List.length_pos.2 hjs
        omega)]
      apply ih
      · exact hjs
      · exact (List.nodup_cons.1 hnd).2
      · exact fun j2 hj2 => hbound j2 (List.mem_cons_of_mem j hj2)
      · intro j2 hj2n hj2
        have hne : ¬(j2 = j) := fun he =>
          (List.nodup_cons.1 hnd).1 (he ▸ hj2)
        rw [setL_mem]
        simp [World.setP, hne]
        rw [hpend j2 hj2n (List.mem_cons_of_mem j hj2)]
      · intro j2 hj2n hj2
        rw [setL_mem]
        by_cases he : j2 = j
        · subst he; simp [World.setP]
        · simp [World.setP, he]
          rw [hdone j2 hj2n (by simp [he, hj2])]
      · rw [setL_mem]
        have : ¬(n = j) := fun he => hjne he.symm
        simp [World.setP, this]
        exact hfreshN
      · simp [World.setL]

/-- C8: `listPromise` over any non-empty family of pending promises
`0 .. n-1`, whose inputs are later all fulfilled — in an arbitrary
completion order `ord` (any enumeration of the inputs) each with its own
value — returns a promise that ends up Fulfilled with the list of values
in input order `[vals 0, …, vals (n-1)]`, not completion order. -/
theorem C8_listPromise_input_order (n : Nat) (vals : Nat → Val)
    (ord : List Nat) (hn : 1 ≤ n)
    (hv : ∀ j, isPromiseLike (vals j) = false)
    (hnd : ord.Nodup) (hlen : ord.length = n)
    (hmem : ∀ j ∈ ord, j < n) :
    (exec (n + 10) (.listPromise (prefs n)) (wLP n)).1 = .ok (.pref n) ∧
    (settleAll vals ord
        (exec (n + 10) (.listPromise (prefs n)) (wLP n)).2).mem n
      = ⟨FULFILLED, .list ((List.range n).map vals), .none,
         Option.none, some []⟩ := by
  have hlen0 : ¬((prefs n).length = 0) := by
    simp [prefs]
    omega
  have hlpa : lpArgs (prefs n) = prefs n := lpArgs_map_pref (List.range n)
  have hstep1 : exec (n + 10) (.listPromise (prefs n)) (wLP n)
      = (match regLoop (n + 9) (prefs n) (prefs n) 0 n
            (allocL (allocP (wLP n)).2 (prefs n).length).2 with
         | (.ok _, w3) => ((Except.ok (Val.pref n) : Except Val Val), w3)
         | (.error e, w3) => (.error e, w3)) := by
    rw [show n + 10 = (n + 9) + 1 from rfl]
    simp only [exec]
    rw [if_neg hlen0, hlpa]
    rfl
  have hfresh : ∀ j, ((allocL (allocP (wLP n)).2 (prefs n).length).2).mem j
      = freshPromise := by
    intro j
    simp [allocL, allocP, World.setP, World.setL, wLP]
  have hlatch : ((allocL (allocP (wLP n)).2 (prefs n).length).2).latch 0
      = (n : Int) := by
    simp [allocL, allocP, World.setP, World.setL, wLP, prefs]
  have hcov : ∀ j, j < n → j ∈ ord := by
    intro j hj
    have hsub : ord.toFinset ⊆ Finset.range n := by
      intro a ha
      exact Finset.mem_range.2 (hmem a (List.mem_toFinset.1 ha))
    have hcard : (Finset.range n).card ≤ ord.toFinset.card := by
      rw [Finset.card_range, List.toFinset_card_of_nodup hnd, hlen]
    have heq : ord.toFinset = Finset.range n :=
      Finset.eq_of_subset_of_card_le hsub hcard
    have : j ∈ ord.toFinset := by rw [heq]; exact Finset.mem_range.2 hj
    exact List.mem_toFinset.1 this
  have hrl := regLoop_registers 0 n (prefs n) (List.range n) (n + 9)
    (allocL (allocP (wLP n)).2 (prefs n).length).2
    (List.nodup_range n) (fun j _ => hfresh j)
    (by simp)
  have hA : (regLoop (n + 9) (prefs n) (prefs n) 0 n
      (allocL (allocP (wLP n)).2 (prefs n).length).2).1 = .ok .none := hrl.1
  have hB : ∀ j ∈ List.range n, (regLoop (n + 9) (prefs n) (prefs n) 0 n
      (allocL (allocP (wLP n)).2 (prefs n).length).2).2.mem j
      = lpRegObj 0 (prefs n) n := hrl.2.1
  have hC : ∀ i, i ∉ List.range n → (regLoop (n + 9) (prefs n) (prefs n) 0 n
      (allocL (allocP (wLP n)).2 (prefs n).length).2).2.mem i
      = ((allocL (allocP (wLP n)).2 (prefs n).length).2).mem i := hrl.2.2.1
  have hD : (regLoop (n + 9) (prefs n) (prefs n) 0 n
      (allocL (allocP (wLP n)).2 (prefs n).length).2).2.latch
      = ((allocL (allocP (wLP n)).2 (prefs n).length).2).latch := hrl.2.2.2.1
  rw [hstep1]
  rcases hsplit : regLoop (n + 9) (prefs n) (prefs n) 0 n
      (allocL (allocP (wLP n)).2 (prefs n).length).2 with ⟨r1, w3⟩
  rw [hsplit] at hA hB hC hD
  simp only at hA
  subst hA
  simp only [hsplit]
  refine ⟨by simp, ?_⟩
  apply settleAll_gathers n vals hv ord w3
  · intro he
    rw [he] at hlen
    simp at hlen
    omega
  · exact hnd
  · exact hmem
  · intro j hj _
    exact hB j (List.mem_range.2 hj)
  · intro j hj hnotin
    exact absurd (hcov j hj) hnotin
  · rw [hC n (by simp)]
    exact hfresh n
  · show w3.latch 0 = (ord.length : Int)
    rw [congrFun hD 0, hlatch, hlen]

/-- Witness for `C8_listPromise_input_order`: three inputs completed in
the order 2, 0, 1 with values 10, 20, 30 still produce `[10, 20, 30]`. -/
theorem C8_listPromise_input_order_witness :
    (exec 13 (.listPromise (prefs 3)) (wLP 3)).1 = .ok (.pref 3) ∧
    (settleAll (fun j => .int (10 * (j + 1))) [2, 0, 1]
        (exec 13 (.listPromise (prefs 3)) (wLP 3)).2).mem 3
      = ⟨FULFILLED, .list [.int 10, .int 20, .int 30], .none,
         Option.none, some []⟩ := by
  have h := C8_listPromise_input_order 3 (fun j => .int (10 * (j + 1)))
    [2, 0, 1] (by decide) (fun j => rfl) (by decide) rfl (by decide)
  exact ⟨h.1, h.2⟩

end Aplus
